import Mathlib

/-!
Verification of the `perfect-map` library (`src/lib.rs`): an immutable
key-to-value map backed by an external minimal perfect hash function
(`ph::fmph::GOFunction`).

The external oracle is modelled abstractly as a function from keys to
`Option Nat` (mirroring `GOFunction::get`, which returns `Option<u64>`),
together with abstract byte persistence (`write` / `read`).  All code of
`src/lib.rs` itself is embedded directly: construction (`PerfectMap::new`,
`from_map`, `from_map_invert`), lookup (`PerfectMap::get`), and the serde
(de)serialization protocol (`visit_seq` / `visit_map`, modelled over an
abstract stream of already-lexed entries).  Panics (the length assertion,
`Option::unwrap`, slice indexing) are made explicit in an `Except Panic`
result.
-/

namespace PerfectMapLib

variable {K V U : Type}

/-- The external minimal-perfect-hash oracle (`ph::fmph::GOFunction`),
modelled abstractly by its evaluation function: `GOFunction::get` returns
`Option<u64>`. -/
structure Oracle (K : Type) where
  eval : K → Option Nat

/-- `PerfectMap<K, V>` from `src/lib.rs`: the oracle plus the dense,
slot-ordered value vector.  (The `spooky: PhantomData<K>` field carries no
data and is omitted.) -/
structure PerfectMap (K V : Type) where
  function : Oracle K
  values : List V

/-- The ways the Rust construction code can panic: the explicit
`assert!(keys.len() == values.len())`, the `.unwrap()` on the oracle's
result, and the slice indexing `spare_capacity_mut()[new_idx]`. -/
inductive Panic where
  | assertionFailed
  | unwrapNone
  | indexOutOfBounds
deriving DecidableEq

/-- The reordering loop of `PerfectMap::new`:
`for (k, v) in keys.into_iter().zip(values.into_iter()) {
   let new_idx = hasher.get(&k).unwrap() as usize;
   reordered_vals.spare_capacity_mut()[new_idx].write(v.into()); }`.
The partially initialized buffer is a `List (Option V)`; a `none` entry is
an uninitialized slot.  `conv` is the `U: Into<V>` conversion. -/
def fillLoop (o : Oracle K) (conv : U → V) :
    List (K × U) → List (Option V) → Except Panic (List (Option V))
  | [], buf => .ok buf
  | (k, v) :: rest, buf =>
    match o.eval k with
    | none => .error .unwrapNone
    | some newIdx =>
      if newIdx < buf.length then
        fillLoop o conv rest (buf.set newIdx (some (conv v)))
      else .error .indexOutOfBounds

/-- `PerfectMap::new`: assert equal lengths, build the oracle over the keys
(`build` stands for `GOFunction::from_slice_with_conf` with the fixed
`lsize 300` configuration), reorder the values through `fillLoop`, then
`set_len` (modelled by defaulting the, in fact absent, uninitialized
slots). -/
def PerfectMap.new [Inhabited V] (build : List K → Oracle K) (conv : U → V)
    (keys : List K) (values : List U) : Except Panic (PerfectMap K V) :=
  if keys.length = values.length then
    match fillLoop (build keys) conv (keys.zip values)
        (List.replicate values.length none) with
    | .ok buf => .ok { function := build keys, values := buf.map (fun x => x.getD default) }
    | .error p => .error p
  else .error Panic.assertionFailed

/-- `PerfectMap::from_map`: unzip the map's entries (modelled as an
association list) and call `new` on keys and values. -/
def PerfectMap.from_map [Inhabited V] (build : List K → Oracle K) (conv : U → V)
    (m : List (K × U)) : Except Panic (PerfectMap K V) :=
  PerfectMap.new build conv (m.map Prod.fst) (m.map Prod.snd)

/-- `PerfectMap::from_map_invert`: unzip into `(values, keys)` and call
`new` on the swapped lists. -/
def PerfectMap.from_map_invert [Inhabited V] (build : List K → Oracle K) (conv : U → V)
    (m : List (U × K)) : Except Panic (PerfectMap K V) :=
  PerfectMap.new build conv (m.map Prod.snd) (m.map Prod.fst)

/-- `PerfectMap::get`:
`self.function.get(key).and_then(|v| self.values.get(v as usize))`. -/
def PerfectMap.get (m : PerfectMap K V) (key : K) : Option V :=
  (m.function.eval key).bind fun v => m.values[v]?

/-- The oracle contract over a construction key list (spec section 3): the
evaluations of the keys are exactly the slots `0, ..., n-1`, each hit once
(a bijection onto `[0, n)`). -/
def Oracle.bijectiveOn (o : Oracle K) (keys : List K) : Prop :=
  (keys.map o.eval).Perm ((List.range keys.length).map some)

/-! ## Serde model

The two physical encodings are modelled over streams of already-lexed
entries: a `Field` identifier (the `field_identifier` enum) and a payload
`Elem` that is either a decoded value vector or a raw byte buffer.  A
payload of the wrong shape for the requested type stands for an underlying
value-decode failure (`DeError.valueError`). -/

/-- The `Field` identifier enum (`enum Field { Values, Function }`). -/
inductive Field where
  | values
  | function
deriving DecidableEq

/-- A lexed payload in the serialized stream: either a value vector or a
byte buffer (oracle bytes are `List Nat`). -/
inductive Elem (V : Type) where
  | vals : List V → Elem V
  | bytes : List Nat → Elem V

/-- Serde error outcomes produced by the deserializer. -/
inductive DeError where
  | invalidLength : Nat → DeError
  | duplicateField : String → DeError
  | missingField : String → DeError
  | custom : String → DeError
  | valueError : DeError
deriving DecidableEq

/-- `PerfectMapVisitor::visit_seq`: read element 0 as the value vector
(else `invalid_length(0)`), element 1 as the function bytes (else
`invalid_length(1)`), then `GOFunction::read` (`rb`). -/
def visitSeq (rb : List Nat → Option (Oracle K)) (elems : List (Elem V)) :
    Except DeError (PerfectMap K V) :=
  match elems with
  | [] => .error (.invalidLength 0)
  | Elem.bytes _ :: _ => .error .valueError
  | Elem.vals values :: rest =>
    match rest with
    | [] => .error (.invalidLength 1)
    | Elem.vals _ :: _ => .error .valueError
    | Elem.bytes bs :: _ =>
      match rb bs with
      | some f => .ok { function := f, values := values }
      | none => .error (.custom "invalid bytes: expected bytes representing a ph::GOFunction")

/-- The `while let Some(key) = map.next_key()?` loop of
`PerfectMapVisitor::visit_map`, carrying the two `Option` accumulators.
Note the source's duplicate-`values` branch raises
`duplicate_field("function")`. -/
def visitMapLoop : List (Field × Elem V) → Option (List V) → Option (List Nat) →
    Except DeError (Option (List V) × Option (List Nat))
  | [], vs, fb => .ok (vs, fb)
  | (Field.function, e) :: rest, vs, fb =>
    if fb.isSome then .error (.duplicateField "function")
    else
      match e with
      | Elem.bytes bs => visitMapLoop rest vs (some bs)
      | Elem.vals _ => .error .valueError
  | (Field.values, e) :: rest, vs, fb =>
    if vs.isSome then .error (.duplicateField "function")
    else
      match e with
      | Elem.vals v => visitMapLoop rest (some v) fb
      | Elem.bytes _ => .error .valueError

/-- `PerfectMapVisitor::visit_map`: run the field loop, then check
`function` for absence, then `values`, then `GOFunction::read` (`rb`). -/
def visitMap (rb : List Nat → Option (Oracle K)) (entries : List (Field × Elem V)) :
    Except DeError (PerfectMap K V) :=
  match visitMapLoop entries none none with
  | .error e => .error e
  | .ok (vs, fb) =>
    match fb with
    | none => .error (.missingField "function")
    | some bs =>
      match vs with
      | none => .error (.missingField "values")
      | some values =>
        match rb bs with
        | some f => .ok { function := f, values := values }
        | none => .error (.custom "invalid bytes: expected bytes representing a ph::GOFunction")

/-- `Serialize for PerfectMap`, as seen by a field-tagged format:
`serialize_struct("PerfectMap", 2)` emits `values` then `function`
(`wb` stands for `GOFunction::write`). -/
def PerfectMap.serializeStruct (wb : Oracle K → List Nat) (m : PerfectMap K V) :
    List (Field × Elem V) :=
  [(Field.values, Elem.vals m.values), (Field.function, Elem.bytes (wb m.function))]

/-- `Serialize for PerfectMap`, as seen by a fixed-order sequence format:
the two fields positionally, `values` first then `function`. -/
def PerfectMap.serializeSeq (wb : Oracle K → List Nat) (m : PerfectMap K V) :
    List (Elem V) :=
  [Elem.vals m.values, Elem.bytes (wb m.function)]

/-- Whether a byte buffer is decoded as an owned copy or borrowed zero-copy
from the input. -/
inductive ByteReadMode where
  | owned
  | borrowed
deriving DecidableEq

/-- `CowBytes::deserialize`: `if deserializer.is_human_readable()` decode a
`Vec<u8>` (owned), else a `&[u8]` (borrowed).  The `CowBytes` helper is
dead code: it is referenced nowhere outside its own definition, so neither
deserialization path executes this logic. -/
def cowBytesReadMode (humanReadable : Bool) : ByteReadMode :=
  if humanReadable then ByteReadMode.owned else ByteReadMode.borrowed

/-- How `visit_seq` reads the function bytes: the type annotation
`let function_bytes: &[u8] = seq.next_element()?` always requests a
borrowed slice, whatever the outer format's human-readability. -/
def visitSeqBytesReadMode (_humanReadable : Bool) : ByteReadMode :=
  ByteReadMode.borrowed

/-- How `visit_map` reads the function bytes: it stores into
`Option<Cow<'de, [u8]>>`, so `map.next_value()` resolves to serde's
blanket `Deserialize` impl for `std::borrow::Cow`, which deserializes the
owned form (`Vec<u8>`) and wraps it in `Cow::Owned` — always owned, with
no `is_human_readable` check — not to the unused `CowBytes` helper. -/
def visitMapBytesReadMode (_humanReadable : Bool) : ByteReadMode :=
  ByteReadMode.owned

/-- Well-typedness of one lexed map entry: the payload has the shape the
visitor's `next_value` call requests for that field. -/
def entryWellTyped : Field × Elem V → Bool
  | (Field.values, Elem.vals _) => true
  | (Field.function, Elem.bytes _) => true
  | _ => false

/-- All entries of a field-tagged stream are well-typed. -/
def wellTyped (entries : List (Field × Elem V)) : Bool :=
  entries.all entryWellTyped

/-! ## Concrete instances used by witnesses -/

/-- A concrete three-key oracle: `0 ↦ 1`, `1 ↦ 2`, `2 ↦ 0` (and every other
input also lands in range, as a real MPHF would). -/
def orcW : Oracle Nat := ⟨fun k => some ((k + 1) % 3)⟩

/-- A concrete oracle builder returning `orcW`. -/
def buildW : List Nat → Oracle Nat := fun _ => orcW

/-- A concrete already-built map over `orcW`. -/
def mapW : PerfectMap Nat Nat := { function := orcW, values := [10, 20, 30] }

/-- A concrete oracle byte writer. -/
def wbW : Oracle Nat → List Nat := fun _ => [7]

/-- A concrete oracle byte reader, inverse to `wbW` on `orcW`. -/
def rbW : List Nat → Option (Oracle Nat) := fun _ => some orcW

/-! ## Theorems -/

/-- C3: `get(key)` is exactly oracle evaluation followed by a
bounds-checked access into `values`: it returns `none` when the oracle
returns `none` or when the returned slot is out of range, and otherwise
returns `some` of the value stored at that slot — membership of the key in
the construction set plays no role. -/
theorem get_is_eval_then_bounds_check (m : PerfectMap K V) (k : K) :
    (m.function.eval k = none → m.get k = none) ∧
    (∀ s, m.function.eval k = some s → m.values.length ≤ s → m.get k = none) ∧
    (∀ s (hs : s < m.values.length), m.function.eval k = some s →
      m.get k = some (m.values.get ⟨s, hs⟩)) := by
  refine ⟨fun h => ?_, fun s hev hge => ?_, fun s hs hev => ?_⟩
  · simp [PerfectMap.get, h]
  · simp [PerfectMap.get, hev, List.getElem?_eq_none hge]
  · simp [PerfectMap.get, hev, List.getElem?_eq_getElem hs]

/-- Witness for C3: on `mapW`, the key `5` — never a construction key —
still evaluates to slot `0` and yields the spurious `some 10`. -/
theorem get_is_eval_then_bounds_check_witness : mapW.get 5 = some 10 :=
  (get_is_eval_then_bounds_check mapW 5).2.2 0 (by decide) rfl

/-- C6 (amended): the `CowBytes` helper transcribes an encoding-aware
read — owned when the outer format is human-readable, borrowed when it is
binary — but it is dead code used by neither path, and no executed
deserialization path is encoding-aware: the fixed-order sequence path
always reads the function bytes as a borrowed slice, and the field-tagged
path always reads them as an owned buffer, regardless of the outer
format's human-readability. -/
theorem byte_read_modes :
    (∀ h : Bool, cowBytesReadMode h =
      (if h then ByteReadMode.owned else ByteReadMode.borrowed)) ∧
    (∀ h : Bool, visitSeqBytesReadMode h = ByteReadMode.borrowed) ∧
    (∀ h : Bool, visitMapBytesReadMode h = ByteReadMode.owned) := by
  exact ⟨fun h => rfl, fun h => rfl, fun h => rfl⟩

/-- Counterexample for C6 as stated: in the fixed-order sequence encoding
under a human-readable outer format, the function bytes are *not* read as
an owned decoded byte sequence. -/
theorem byte_read_modes_counterexample :
    ¬ visitSeqBytesReadMode true = ByteReadMode.owned := by
  decide

/-- C8: `visit_seq` reads exactly two positional elements, values first
then function: an empty sequence fails with `invalid_length(0)`, a
sequence holding only the value vector fails with `invalid_length(1)`, and
once the two elements are read any further elements are irrelevant. -/
theorem visitSeq_positional (rb : List Nat → Option (Oracle K)) :
    (visitSeq rb ([] : List (Elem V)) = .error (.invalidLength 0)) ∧
    (∀ vs : List V, visitSeq rb [Elem.vals vs] = .error (.invalidLength 1)) ∧
    (∀ (vs : List V) (bs : List Nat) (rest : List (Elem V)),
      visitSeq rb (Elem.vals vs :: Elem.bytes bs :: rest) =
        visitSeq rb [Elem.vals vs, Elem.bytes bs]) := by
  exact ⟨rfl, fun vs => rfl, fun vs bs rest => rfl⟩

/-- C9: `PerfectMap::new` fails the length assertion — a panic, not a
returned error — on every input pair with `keys.len() != values.len()`. -/
theorem new_length_assertion [Inhabited V] (build : List K → Oracle K) (conv : U → V)
    (keys : List K) (values : List U) (h : keys.length ≠ values.length) :
    PerfectMap.new build conv keys values = .error Panic.assertionFailed := by
  simp [PerfectMap.new, h]

/-- Witness for C9: one key and no values trips the assertion. -/
theorem new_length_assertion_witness :
    PerfectMap.new buildW id [0] ([] : List Nat) = .error Panic.assertionFailed :=
  new_length_assertion buildW id [0] [] (by decide)

/-- The head of a well-typed entry list is well-typed and so is the
tail. -/
theorem wellTyped_cons {hd : Field × Elem V} {tl : List (Field × Elem V)}
    (h : wellTyped (hd :: tl) = true) :
    entryWellTyped hd = true ∧ wellTyped tl = true := by
  simpa [wellTyped, List.all_cons] using h

/-- Counting a field among the keys of a cons: add one exactly when the
head carries that field. -/
theorem count_fields_cons (f : Field) (e : Elem V) (tl : List (Field × Elem V)) (g : Field) :
    (((f, e) :: tl).map Prod.fst).count g =
      (tl.map Prod.fst).count g + (if f = g then 1 else 0) := by
  simp [List.count_cons]

/-- Loop invariant: once a field has been seen twice — counting a field
already recorded in the accumulators — the field loop stops with the
source's duplicate-field error, which names `"function"` in both branches,
provided no payload mis-typing errors out first. -/
theorem visitMapLoop_dup :
    ∀ (entries : List (Field × Elem V)) (vs : Option (List V)) (fb : Option (List Nat)),
    wellTyped entries = true →
    (2 ≤ (entries.map Prod.fst).count Field.values + (if vs.isSome then 1 else 0) ∨
      2 ≤ (entries.map Prod.fst).count Field.function + (if fb.isSome then 1 else 0)) →
    visitMapLoop entries vs fb = .error (.duplicateField "function") := by
  intro entries
  induction entries with
  | nil =>
    intro vs fb _ hcnt
    cases vs <;> cases fb <;> simp at hcnt
  | cons hd tl ih =>
    intro vs fb hwt hcnt
    obtain ⟨f, e⟩ := hd
    obtain ⟨hhd, htl⟩ := wellTyped_cons hwt
    cases f with
    | values =>
      cases e with
      | bytes bs => simp [entryWellTyped] at hhd
      | vals v =>
        cases hvs : vs with
        | some v₀ => simp [visitMapLoop]
        | none =>
          rw [hvs] at hcnt
          simp only [visitMapLoop, Option.isSome_none, Bool.false_eq_true, if_false]
          apply ih (some v) fb htl
          rw [count_fields_cons Field.values _ tl Field.values,
            count_fields_cons Field.values _ tl Field.function] at hcnt
          rcases hcnt with h | h
          · left
            simpa using h
          · right
            simpa using h
    | function =>
      cases e with
      | vals v => simp [entryWellTyped] at hhd
      | bytes bs =>
        cases hfb : fb with
        | some b₀ => simp [visitMapLoop]
        | none =>
          rw [hfb] at hcnt
          simp only [visitMapLoop, Option.isSome_none, Bool.false_eq_true, if_false]
          apply ih vs (some bs) htl
          rw [count_fields_cons Field.function _ tl Field.values,
            count_fields_cons Field.function _ tl Field.function] at hcnt
          rcases hcnt with h | h
          · left
            simpa using h
          · right
            simpa using h

/-- If the field loop completes, every field was seen at most once
(accumulators included). -/
theorem visitMapLoop_ok_counts :
    ∀ (entries : List (Field × Elem V)) (vs : Option (List V)) (fb : Option (List Nat))
      (out : Option (List V) × Option (List Nat)),
    visitMapLoop entries vs fb = .ok out →
    (entries.map Prod.fst).count Field.values + (if vs.isSome then 1 else 0) ≤ 1 ∧
    (entries.map Prod.fst).count Field.function + (if fb.isSome then 1 else 0) ≤ 1 := by
  intro entries
  induction entries with
  | nil =>
    intro vs fb out _
    cases vs <;> cases fb <;> simp
  | cons hd tl ih =>
    intro vs fb out hok
    obtain ⟨f, e⟩ := hd
    cases f with
    | values =>
      cases hvs : vs with
      | some v₀ => simp [visitMapLoop, hvs] at hok
      | none =>
        rw [hvs] at hok
        cases e with
        | bytes bs => simp [visitMapLoop] at hok
        | vals v =>
          simp only [visitMapLoop, Option.isSome_none, Bool.false_eq_true, if_false] at hok
          obtain ⟨h1, h2⟩ := ih (some v) fb out hok
          rw [count_fields_cons Field.values _ tl Field.values,
            count_fields_cons Field.values _ tl Field.function]
          constructor
          · simpa using h1
          · simpa using h2
    | function =>
      cases hfb : fb with
      | some b₀ => simp [visitMapLoop, hfb] at hok
      | none =>
        rw [hfb] at hok
        cases e with
        | vals v => simp [visitMapLoop] at hok
        | bytes bs =>
          simp only [visitMapLoop, Option.isSome_none, Bool.false_eq_true, if_false] at hok
          obtain ⟨h1, h2⟩ := ih vs (some bs) out hok
          rw [count_fields_cons Field.function _ tl Field.values,
            count_fields_cons Field.function _ tl Field.function]
          constructor
          · simpa using h1
          · simpa using h2

/-- If every entry is well-typed and each field occurs at most once
(accumulators included), the field loop completes, and each accumulator
ends filled exactly when it started filled or its field occurs in the
stream. -/
theorem visitMapLoop_ok_of_once :
    ∀ (entries : List (Field × Elem V)) (vs : Option (List V)) (fb : Option (List Nat)),
    wellTyped entries = true →
    (entries.map Prod.fst).count Field.values + (if vs.isSome then 1 else 0) ≤ 1 →
    (entries.map Prod.fst).count Field.function + (if fb.isSome then 1 else 0) ≤ 1 →
    ∃ vs' fb', visitMapLoop entries vs fb = .ok (vs', fb') ∧
      (fb'.isSome = true ↔ fb.isSome = true ∨ Field.function ∈ entries.map Prod.fst) ∧
      (vs'.isSome = true ↔ vs.isSome = true ∨ Field.values ∈ entries.map Prod.fst) := by
  intro entries
  induction entries with
  | nil =>
    intro vs fb _ _ _
    exact ⟨vs, fb, rfl, by simp, by simp⟩
  | cons hd tl ih =>
    intro vs fb hwt hcv hcf
    obtain ⟨f, e⟩ := hd
    obtain ⟨hhd, htl⟩ := wellTyped_cons hwt
    cases f with
    | values =>
      cases e with
      | bytes bs => simp [entryWellTyped] at hhd
      | vals v =>
        rw [count_fields_cons Field.values _ tl Field.values] at hcv
        rw [count_fields_cons Field.values _ tl Field.function] at hcf
        cases hvs : vs with
        | some v₀ =>
          exfalso
          rw [hvs] at hcv
          simp at hcv
        | none =>
          rw [hvs] at hcv
          obtain ⟨vs', fb', hrun, hf, hv⟩ := ih (some v) fb htl
            (by simpa using hcv) (by simpa using hcf)
          refine ⟨vs', fb', ?_, ?_, ?_⟩
          · simp only [visitMapLoop, Option.isSome_none, Bool.false_eq_true, if_false]
            exact hrun
          · rw [hf]
            simp
          · rw [hv]
            simp
    | function =>
      cases e with
      | vals v => simp [entryWellTyped] at hhd
      | bytes bs =>
        rw [count_fields_cons Field.function _ tl Field.values] at hcv
        rw [count_fields_cons Field.function _ tl Field.function] at hcf
        cases hfb : fb with
        | some b₀ =>
          exfalso
          rw [hfb] at hcf
          simp at hcf
        | none =>
          rw [hfb] at hcf
          obtain ⟨vs', fb', hrun, hf, hv⟩ := ih vs (some bs) htl
            (by simpa using hcv) (by simpa using hcf)
          refine ⟨vs', fb', ?_, ?_, ?_⟩
          · simp only [visitMapLoop, Option.isSome_none, Bool.false_eq_true, if_false]
            exact hrun
          · rw [hf]
            simp
          · rw [hv]
            simp

/-- If `visit_map` succeeds, its field loop succeeded. -/
theorem visitMap_ok_loop {rb : List Nat → Option (Oracle K)} {entries : List (Field × Elem V)}
    {m' : PerfectMap K V} (h : visitMap rb entries = .ok m') :
    ∃ out, visitMapLoop entries none none = .ok out := by
  rw [visitMap] at h
  cases hloop : visitMapLoop (V := V) entries none none with
  | error e => rw [hloop] at h; simp at h
  | ok out => exact ⟨out, rfl⟩

/-- C5: a field-tagged record in which the `values` field (or the
`function` field) appears twice never deserializes successfully; when the
payloads themselves are decodable it is rejected with a duplicate-field
error. -/
theorem dup_field_rejected (rb : List Nat → Option (Oracle K))
    (entries : List (Field × Elem V))
    (hdup : 2 ≤ (entries.map Prod.fst).count Field.values ∨
      2 ≤ (entries.map Prod.fst).count Field.function) :
    (wellTyped entries = true →
      ∃ name, visitMap rb entries = .error (.duplicateField name)) ∧
    (∀ m', visitMap rb entries ≠ .ok m') := by
  constructor
  · intro hwt
    refine ⟨"function", ?_⟩
    have hloop := visitMapLoop_dup entries none none hwt
      (by rcases hdup with h | h
          · exact Or.inl (by simpa using h)
          · exact Or.inr (by simpa using h))
    simp [visitMap, hloop]
  · intro m' hok
    obtain ⟨⟨vs', fb'⟩, hloop⟩ := visitMap_ok_loop hok
    obtain ⟨h1, h2⟩ := visitMapLoop_ok_counts entries none none _ hloop
    simp at h1 h2
    rcases hdup with h | h <;> omega

/-- Witness for C5: the concrete record `[values ↦ [1], values ↦ [2]]`
fails to deserialize. -/
theorem dup_field_rejected_witness :
    visitMap rbW [(Field.values, Elem.vals [1]), (Field.values, Elem.vals [2])] ≠
      .ok mapW := by
  obtain ⟨h1, h2⟩ := dup_field_rejected rbW
    [(Field.values, Elem.vals [1]), (Field.values, Elem.vals [2])] (by decide)
  exact h2 mapW

/-- C7: a well-typed, duplicate-free field-tagged record that ends before
both fields have been seen is rejected with a missing-field error naming
an absent field: `"function"` whenever `function` is absent, `"values"`
when only `values` is absent. -/
theorem missing_field_rejected (rb : List Nat → Option (Oracle K))
    (entries : List (Field × Elem V))
    (hwt : wellTyped entries = true) (hnd : (entries.map Prod.fst).Nodup) :
    (Field.function ∉ entries.map Prod.fst →
      visitMap rb entries = .error (.missingField "function")) ∧
    (Field.function ∈ entries.map Prod.fst → Field.values ∉ entries.map Prod.fst →
      visitMap rb entries = .error (.missingField "values")) := by
  have hcv : (entries.map Prod.fst).count Field.values ≤ 1 :=
    List.nodup_iff_count_le_one.mp hnd _
  have hcf : (entries.map Prod.fst).count Field.function ≤ 1 :=
    List.nodup_iff_count_le_one.mp hnd _
  obtain ⟨vs', fb', hloop, hf, hv⟩ := visitMapLoop_ok_of_once entries none none hwt
    (by simpa using hcv) (by simpa using hcf)
  constructor
  · intro hnotf
    have hfb' : fb' = none := by
      rw [← Option.not_isSome_iff_eq_none]
      intro hs
      have h2 : Field.function ∈ List.map Prod.fst entries := by simpa using hf.mp hs
      exact hnotf h2
    simp [visitMap, hloop, hfb']
  · intro hmemf hnotv
    have hvs' : vs' = none := by
      rw [← Option.not_isSome_iff_eq_none]
      intro hs
      have h2 : Field.values ∈ List.map Prod.fst entries := by simpa using hv.mp hs
      exact hnotv h2
    have hfs : fb'.isSome = true := hf.mpr (Or.inr hmemf)
    obtain ⟨bs, hbs⟩ := Option.isSome_iff_exists.mp hfs
    simp [visitMap, hloop, hbs, hvs']

/-- Witness for C7: a record with only `values` reports `function` as
missing; a record with only `function` reports `values` as missing. -/
theorem missing_field_rejected_witness :
    visitMap rbW [(Field.values, Elem.vals [1])] = .error (.missingField "function") ∧
    visitMap rbW ([(Field.function, Elem.bytes [7])] : List (Field × Elem Nat)) =
      .error (.missingField "values") :=
  ⟨(missing_field_rejected rbW [(Field.values, Elem.vals [1])]
      (by decide) (by decide)).1 (by decide),
   (missing_field_rejected rbW ([(Field.function, Elem.bytes [7])] : List (Field × Elem Nat))
      (by decide) (by decide)).2 (by decide) (by decide)⟩

/-- C10: on well-typed payloads, a duplicated `values` field produces a
duplicate-field error that names `"function"` — not `"values"` — and a
duplicated `function` field produces the (here correctly named)
`"function"` error. -/
theorem dup_values_error_names_function (rb : List Nat → Option (Oracle K))
    (entries : List (Field × Elem V)) (hwt : wellTyped entries = true) :
    (2 ≤ (entries.map Prod.fst).count Field.values →
      visitMap rb entries = .error (.duplicateField "function")) ∧
    (2 ≤ (entries.map Prod.fst).count Field.function →
      visitMap rb entries = .error (.duplicateField "function")) := by
  constructor
  · intro h
    have hloop := visitMapLoop_dup entries none none hwt (Or.inl (by simpa using h))
    simp [visitMap, hloop]
  · intro h
    have hloop := visitMapLoop_dup entries none none hwt (Or.inr (by simpa using h))
    simp [visitMap, hloop]

/-- Witness for C10: concrete doubled `values` and doubled `function`
records, both erroring with the name `"function"`. -/
theorem dup_values_error_names_function_witness :
    visitMap rbW [(Field.values, Elem.vals [1]), (Field.values, Elem.vals [2])] =
      .error (.duplicateField "function") ∧
    visitMap rbW ([(Field.function, Elem.bytes [7]), (Field.function, Elem.bytes [8])] :
        List (Field × Elem Nat)) =
      .error (.duplicateField "function") :=
  ⟨(dup_values_error_names_function rbW
      [(Field.values, Elem.vals [1]), (Field.values, Elem.vals [2])] (by decide)).1 (by decide),
   (dup_values_error_names_function rbW
      ([(Field.function, Elem.bytes [7]), (Field.function, Elem.bytes [8])] :
        List (Field × Elem Nat)) (by decide)).2
      (by decide)⟩

/-- C2: serializing a map and deserializing the result — under the
oracle's `read ∘ write` round-trip contract — succeeds and preserves
`get` on every key, under both the field-tagged and the fixed-order
sequence encoding. -/
theorem serde_roundtrip (wb : Oracle K → List Nat) (rb : List Nat → Option (Oracle K))
    (m : PerfectMap K V) (h : rb (wb m.function) = some m.function) :
    ∃ m₁ m₂, visitMap rb (m.serializeStruct wb) = .ok m₁ ∧
      visitSeq rb (m.serializeSeq wb) = .ok m₂ ∧
      (∀ k, m₁.get k = m.get k) ∧ (∀ k, m₂.get k = m.get k) := by
  refine ⟨m, m, ?_, ?_, fun _ => rfl, fun _ => rfl⟩
  · simp [visitMap, PerfectMap.serializeStruct, visitMapLoop, h]
  · simp [visitSeq, PerfectMap.serializeSeq, h]

/-- Witness for C2: round-tripping `mapW` through both encodings
preserves the lookup of key `0`. -/
theorem serde_roundtrip_witness :
    (visitMap rbW (mapW.serializeStruct wbW)).map (fun mm => mm.get 0) = .ok (some 20) ∧
    (visitSeq rbW (mapW.serializeSeq wbW)).map (fun mm => mm.get 0) = .ok (some 20) := by
  obtain ⟨m₁, m₂, h₁, h₂, h₃, h₄⟩ := serde_roundtrip wbW rbW mapW rfl
  constructor
  · rw [h₁]
    simp only [Except.map]
    rw [h₃ 0]
    rfl
  · rw [h₂]
    simp only [Except.map]
    rw [h₄ 0]
    rfl

/-! ## The reordering loop and the oracle contract -/

/-- From the bijection contract: every construction key evaluates to some
slot below `n`. -/
theorem bijectiveOn_total (o : Oracle K) (keys : List K) (h : o.bijectiveOn keys) :
    ∀ k ∈ keys, ∃ j, o.eval k = some j ∧ j < keys.length := by
  intro k hk
  have hmem : o.eval k ∈ (List.range keys.length).map some :=
    h.mem_iff.mp (List.mem_map_of_mem o.eval hk)
  obtain ⟨j, hj, hje⟩ := List.mem_map.mp hmem
  exact ⟨j, hje.symm, List.mem_range.mp hj⟩

/-- From the bijection contract: the key evaluations are pairwise
distinct. -/
theorem bijectiveOn_nodup (o : Oracle K) (keys : List K) (h : o.bijectiveOn keys) :
    (keys.map o.eval).Nodup :=
  h.nodup_iff.mpr ((List.nodup_range keys.length).map (Option.some_injective Nat))

/-- From the bijection contract: every slot below `n` is hit by some
construction key. -/
theorem bijectiveOn_surj (o : Oracle K) (keys : List K) (h : o.bijectiveOn keys) :
    ∀ j, j < keys.length → ∃ k ∈ keys, o.eval k = some j := by
  intro j hj
  have hmem : (some j : Option Nat) ∈ keys.map o.eval :=
    h.symm.mem_iff.mp (List.mem_map_of_mem some (List.mem_range.mpr hj))
  obtain ⟨k, hk, hke⟩ := List.mem_map.mp hmem
  exact ⟨k, hk, hke⟩

/-- Mapping key evaluation over the zipped pairs is mapping it over the
keys. -/
theorem map_eval_zip (o : Oracle K) (keys : List K) (values : List U)
    (h : keys.length ≤ values.length) :
    (keys.zip values).map (fun p => o.eval p.1) = keys.map o.eval := by
  rw [show (fun p : K × U => o.eval p.1) = o.eval ∘ Prod.fst from rfl, ← List.map_map,
    List.map_fst_zip keys values h]

/-- Master lemma for the reordering loop: if every pair's key evaluates to
an in-range slot and the evaluations are pairwise distinct, the loop
completes without panicking, preserves the buffer length, stores each
pair's converted value at the pair's slot, and leaves every slot nobody
writes untouched. -/
theorem fillLoop_spec (o : Oracle K) (conv : U → V) :
    ∀ (pairs : List (K × U)) (buf : List (Option V)),
    (∀ p ∈ pairs, ∃ j, o.eval p.1 = some j ∧ j < buf.length) →
    (pairs.map (fun p => o.eval p.1)).Nodup →
    ∃ buf', fillLoop o conv pairs buf = .ok buf' ∧ buf'.length = buf.length ∧
      (∀ p ∈ pairs, ∀ j, o.eval p.1 = some j → buf'[j]? = some (some (conv p.2))) ∧
      (∀ j, (∀ p ∈ pairs, o.eval p.1 ≠ some j) → buf'[j]? = buf[j]?) := by
  intro pairs
  induction pairs with
  | nil =>
    intro buf _ _
    exact ⟨buf, rfl, rfl, by simp, fun j _ => rfl⟩
  | cons hd tl ih =>
    intro buf hrange hnd
    obtain ⟨k, v⟩ := hd
    obtain ⟨j₀, hev, hlt⟩ := hrange (k, v) (List.mem_cons_self _ _)
    rw [List.map_cons, List.nodup_cons] at hnd
    have hbuf₁len : (buf.set j₀ (some (conv v))).length = buf.length := List.length_set buf j₀ _
    have hrange' : ∀ p ∈ tl, ∃ j, o.eval p.1 = some j ∧
        j < (buf.set j₀ (some (conv v))).length := by
      intro p hp
      obtain ⟨j, h1, h2⟩ := hrange p (List.mem_cons_of_mem _ hp)
      exact ⟨j, h1, by rw [hbuf₁len]; exact h2⟩
    obtain ⟨buf', hrun, hblen, hwrite, hframe⟩ := ih (buf.set j₀ (some (conv v))) hrange' hnd.2
    have hfresh : ∀ p ∈ tl, o.eval p.1 ≠ some j₀ := by
      intro p hp hcon
      exact hnd.1 (by rw [← hev] at hcon; rw [← hcon]; exact List.mem_map_of_mem _ hp)
    refine ⟨buf', ?_, ?_, ?_, ?_⟩
    · simp only [fillLoop, hev, hlt, if_true]
      exact hrun
    · rw [hblen, hbuf₁len]
    · intro p hp j hj
      rcases List.mem_cons.mp hp with hph | hpt
      · subst hph
        have hj₀ : j = j₀ := by
          rw [hev] at hj
          exact (Option.some.injEq _ _ ▸ hj).symm
        subst hj₀
        rw [hframe j hfresh]
        exact List.getElem?_set_eq_of_lt _ hlt
      · exact hwrite p hpt j hj
    · intro j hj
      have hj₀ : j₀ ≠ j := by
        intro hcon
        exact hj (k, v) (List.mem_cons_self _ _) (by rw [← hcon]; exact hev)
      rw [hframe j fun p hp => hj p (List.mem_cons_of_mem _ hp),
        List.getElem?_set_ne hj₀]

/-- C4: under the bijection precondition over `n` pairwise-distinct keys,
the construction loop completes, every slot of the length-`n` buffer ends
up written (no slot skipped — so the `set_len` step exposes no
uninitialized element), and each slot is the target of exactly one
write. -/
theorem construction_fills_every_slot (build : List K → Oracle K) (conv : U → V)
    (keys : List K) (values : List U)
    (hlen : keys.length = values.length)
    (hbij : (build keys).bijectiveOn keys) :
    ∃ buf, fillLoop (build keys) conv (keys.zip values)
        (List.replicate values.length none) = .ok buf ∧
      buf.length = values.length ∧
      (∀ i, i < values.length → ∃ v, buf[i]? = some (some v)) ∧
      (∀ i, i < values.length →
        (keys.map (build keys).eval).countP (fun x => x = some i) = 1) := by
  have hle : keys.length ≤ values.length := le_of_eq hlen
  have hrange : ∀ p ∈ keys.zip values, ∃ j, (build keys).eval p.1 = some j ∧
      j < (List.replicate values.length (none : Option V)).length := by
    intro p hp
    obtain ⟨a, b⟩ := p
    obtain ⟨j, h1, h2⟩ := bijectiveOn_total (build keys) keys hbij a (List.of_mem_zip hp).1
    exact ⟨j, h1, by rw [List.length_replicate]; omega⟩
  have hnd : ((keys.zip values).map (fun p => (build keys).eval p.1)).Nodup := by
    rw [map_eval_zip (build keys) keys values hle]
    exact bijectiveOn_nodup (build keys) keys hbij
  obtain ⟨buf', hrun, hblen, hwrite, _⟩ :=
    fillLoop_spec (build keys) conv (keys.zip values)
      (List.replicate values.length none) hrange hnd
  refine ⟨buf', hrun, by rw [hblen, List.length_replicate], ?_, ?_⟩
  · intro i hi
    obtain ⟨k, hk, hke⟩ := bijectiveOn_surj (build keys) keys hbij i (by omega)
    obtain ⟨idx, hidx, hkeq⟩ := List.getElem_of_mem hk
    have hzi : idx < (keys.zip values).length := by
      rw [List.length_zip]
      omega
    have hmem : (keys.zip values).get ⟨idx, hzi⟩ ∈ keys.zip values := List.get_mem _ _ _
    have hfst : ((keys.zip values).get ⟨idx, hzi⟩).1 = k := by
      rw [List.get_eq_getElem]
      rw [List.getElem_zip]
      exact hkeq
    refine ⟨conv ((keys.zip values).get ⟨idx, hzi⟩).2, ?_⟩
    exact hwrite _ hmem i (by rw [hfst]; exact hke)
  · intro i hi
    rw [hbij.countP_eq, List.countP_map]
    have hcnt : (List.range keys.length).countP (fun x => decide (x = i)) = 1 := by
      have := List.count_eq_one_of_mem (List.nodup_range keys.length)
        (List.mem_range.mpr (show i < keys.length by omega))
      simpa [List.count] using this
    rw [← hcnt]
    congr 1
    funext x
    simp

/-- Witness for C4: the concrete three-key construction fills all three
slots, each exactly once. -/
theorem construction_fills_every_slot_witness :
    ∃ buf, fillLoop (buildW [0, 1, 2]) id ([0, 1, 2].zip [10, 20, 30])
        (List.replicate 3 none) = .ok buf ∧
      buf.length = 3 ∧
      (∃ v, buf[0]? = some (some v)) ∧
      ([0, 1, 2].map (buildW [0, 1, 2]).eval).countP (fun x => x = some 0) = 1 := by
  obtain ⟨buf, hrun, hl, hfill, honce⟩ :=
    construction_fills_every_slot buildW id [0, 1, 2] [10, 20, 30] (by decide)
      (by unfold Oracle.bijectiveOn; decide)
  exact ⟨buf, hrun, hl, hfill 0 (by decide), honce 0 (by decide)⟩

/-- C1: with pairwise-distinct keys, equal-length values, and the oracle
bijection contract, `new` succeeds and `get` returns `some` of the value
originally paired with each construction key; `from_map` and
`from_map_invert` are the same construction applied to the unzipped
association list. -/
theorem new_get_roundtrip [Inhabited V] (build : List K → Oracle K) (conv : U → V)
    (keys : List K) (values : List U)
    (hnd : keys.Nodup) (hlen : keys.length = values.length)
    (hbij : (build keys).bijectiveOn keys) :
    (∃ m, PerfectMap.new build conv keys values = .ok m ∧
      ∀ i (hi : i < keys.length),
        m.get (keys.get ⟨i, hi⟩) = some (conv (values.get ⟨i, hlen ▸ hi⟩))) ∧
    (∀ assoc : List (K × U), PerfectMap.from_map build conv assoc =
      PerfectMap.new build conv (assoc.map Prod.fst) (assoc.map Prod.snd)) ∧
    (∀ assoc : List (U × K), PerfectMap.from_map_invert build conv assoc =
      PerfectMap.new build conv (assoc.map Prod.snd) (assoc.map Prod.fst)) := by
  refine ⟨?_, fun _ => rfl, fun _ => rfl⟩
  have hle : keys.length ≤ values.length := le_of_eq hlen
  have hrange : ∀ p ∈ keys.zip values, ∃ j, (build keys).eval p.1 = some j ∧
      j < (List.replicate values.length (none : Option V)).length := by
    intro p hp
    obtain ⟨a, b⟩ := p
    obtain ⟨j, h1, h2⟩ := bijectiveOn_total (build keys) keys hbij a (List.of_mem_zip hp).1
    exact ⟨j, h1, by rw [List.length_replicate]; omega⟩
  have hndz : ((keys.zip values).map (fun p => (build keys).eval p.1)).Nodup := by
    rw [map_eval_zip (build keys) keys values hle]
    exact bijectiveOn_nodup (build keys) keys hbij
  obtain ⟨buf', hrun, hblen, hwrite, _⟩ :=
    fillLoop_spec (build keys) conv (keys.zip values)
      (List.replicate values.length none) hrange hndz
  refine ⟨⟨build keys, buf'.map (fun x => x.getD default)⟩, ?_, ?_⟩
  · rw [PerfectMap.new, if_pos hlen, hrun]
  · intro i hi
    have hzi : i < (keys.zip values).length := by
      rw [List.length_zip]
      omega
    obtain ⟨j, hev, hjlt⟩ := bijectiveOn_total (build keys) keys hbij
      (keys.get ⟨i, hi⟩) (List.get_mem _ _ _)
    have hpair_eq : (keys.zip values).get ⟨i, hzi⟩ =
        (keys.get ⟨i, hi⟩, values.get ⟨i, hlen ▸ hi⟩) := by
      rw [List.get_eq_getElem, List.getElem_zip]
      rfl
    have hpair : (keys.get ⟨i, hi⟩, values.get ⟨i, hlen ▸ hi⟩) ∈ keys.zip values := by
      rw [← hpair_eq]
      exact List.get_mem _ _ _
    have hbuf := hwrite _ hpair j hev
    show ((build keys).eval (keys.get ⟨i, hi⟩)).bind
      (fun v => (buf'.map (fun x => x.getD default))[v]?) = _
    rw [hev, Option.some_bind, List.getElem?_map, hbuf]
    rfl

/-- Witness for C1: the concrete three-key construction round-trips all
three lookups. -/
theorem new_get_roundtrip_witness :
    (PerfectMap.new buildW id [0, 1, 2] [10, 20, 30]).map
      (fun mm => (mm.get 0, mm.get 1, mm.get 2)) = .ok (some 10, some 20, some 30) := by
  obtain ⟨⟨m, hm, hget⟩, -, -⟩ := new_get_roundtrip buildW id [0, 1, 2] [10, 20, 30]
    (by decide) (by decide) (by unfold Oracle.bijectiveOn; decide)
  rw [hm]
  have h0 : m.get 0 = some 10 := hget 0 (by decide)
  have h1 : m.get 1 = some 20 := hget 1 (by decide)
  have h2 : m.get 2 = some 30 := hget 2 (by decide)
  simp only [Except.map]
  rw [h0, h1, h2]

end PerfectMapLib
